import Mathlib

/-!
Shallow embedding of the `MyModel` table model and `MyDelegate` cell delegate
of the lab1_qt20_mvc repository (files `mymodel.h`, `mymodel.cpp`,
`mydelegate.cpp`), together with proofs about the repository's specification.

Modelling conventions:
* `QStr` (`List Char`) models `QString`.
* An RGB colour (`Rgb`) models a valid `QColor`; `Option Rgb` models a
  possibly-invalid `QColor`.  `QColor`'s string constructor is modelled by
  `parseColorChars`, restricted to the `"#RRGGBB"` hexadecimal form plus a
  small table of named colours (the only forms the repository's data ever
  uses).
* Qt item roles are the integers Qt uses: `DisplayRole = 0`,
  `DecorationRole = 1`, `EditRole = 2`.
* A `QModelIndex`'s validity is represented by the row/column range checks
  that `mymodel.cpp` performs (an invalid index has row = column = -1 and is
  caught by those same checks).
* Signal emissions (`dataChanged`, `headerDataChanged`) are returned
  explicitly as lists of emission records.
-/

/-- Model of `QString`: a list of characters. -/
abbrev QStr := List Char

/-- A valid RGB colour (models a valid `QColor`; each channel is 0..255). -/
structure Rgb where
  r : Fin 256
  g : Fin 256
  b : Fin 256
deriving DecidableEq, Repr

/-- Qt's `DisplayRole` (= 0). -/
def displayRole : Nat := 0

/-- Qt's `DecorationRole` (= 1). -/
def decorationRole : Nat := 1

/-- Qt's `EditRole` (= 2). -/
def editRole : Nat := 2

/-- Hexadecimal digit value of a character (accepts both cases), as
`QColor`'s hex parsing does.  Character codes: 48..57 are `'0'..'9'`,
97..102 are `'a'..'f'`, 65..70 are `'A'..'F'`. -/
def hexVal (c : Char) : Option (Fin 16) :=
  if h : 48 ≤ c.toNat ∧ c.toNat ≤ 57 then some ⟨c.toNat - 48, by omega⟩
  else if h : 97 ≤ c.toNat ∧ c.toNat ≤ 102 then some ⟨c.toNat - 97 + 10, by omega⟩
  else if h : 65 ≤ c.toNat ∧ c.toNat ≤ 70 then some ⟨c.toNat - 65 + 10, by omega⟩
  else none

/-- Combine two hex digits into a colour channel, as `QColor`'s
`"#RRGGBB"` parsing does. -/
def hexPair (c1 c2 : Char) : Option (Fin 256) :=
  match hexVal c1, hexVal c2 with
  | some h, some l => some ⟨16 * h.val + l.val, by omega⟩
  | _, _ => none

/-- Two lowercase hex digits for a colour channel, as `QColor::name()`
produces. -/
def hex2 (v : Fin 256) : QStr :=
  [Nat.digitChar (v.val / 16), Nat.digitChar (v.val % 16)]

/-- `QColor::name()`: the `"#rrggbb"` lowercase hexadecimal form. -/
def colorName (c : Rgb) : QStr :=
  '#' :: (hex2 c.r ++ hex2 c.g ++ hex2 c.b)

/-- Named colours recognised by the embedding of `QColor(QString)`
(SVG colour values; a small table sufficient for the repository's data). -/
def namedColorTable : List (QStr × Rgb) :=
  [("black".toList,  ⟨0, 0, 0⟩),
   ("white".toList,  ⟨255, 255, 255⟩),
   ("red".toList,    ⟨255, 0, 0⟩),
   ("green".toList,  ⟨0, 128, 0⟩),
   ("blue".toList,   ⟨0, 0, 255⟩)]

/-- Model of the `QColor(QString)` constructor: `"#RRGGBB"` hexadecimal
(either case) or a named colour; anything else is an invalid colour
(`none`). -/
def parseColorChars : QStr → Option Rgb
  | '#' :: [c1, c2, c3, c4, c5, c6] =>
    match hexPair c1 c2, hexPair c3 c4, hexPair c5 c6 with
    | some r, some g, some b => some ⟨r, g, b⟩
    | _, _, _ => none
  | cs => (namedColorTable.find? (fun p => p.1 = cs)).map Prod.snd

/-- Decimal digit value of a character. -/
def digitVal (c : Char) : Option Nat :=
  if '0' ≤ c ∧ c ≤ '9' then some (c.toNat - '0'.toNat) else none

/-- Decimal digit characters of a natural number, most significant first
(models `QString::number` on non-negative values). -/
def natChars (n : Nat) : QStr :=
  if _h : n < 10 then [Nat.digitChar n]
  else natChars (n / 10) ++ [Nat.digitChar (n % 10)]
decreasing_by
  exact Nat.div_lt_self (by omega) (by omega)

/-- Decimal digit characters of an integer (models `QString::number`). -/
def intChars (n : Int) : QStr :=
  if n < 0 then '-' :: natChars (-n).toNat else natChars n.toNat

/-- Accumulating decimal parser over a character list. -/
def parseDigitsAux (acc : Nat) : QStr → Option Nat
  | [] => some acc
  | c :: cs =>
    match digitVal c with
    | some d => parseDigitsAux (10 * acc + d) cs
    | none => none

/-- Parse a non-empty all-digit character list as a natural number. -/
def parseDigits : QStr → Option Nat
  | [] => none
  | c :: cs => parseDigitsAux 0 (c :: cs)

/-- Model of `QString::toInt` restricted to the format the TSV spec fixes:
base-10 digits, optional leading `-`, no leading `+`, nothing else. -/
def parseIntChars : QStr → Option Int
  | [] => none
  | c :: cs =>
    if c = '-' then
      match parseDigits cs with
      | some n => some (-(n : Int))
      | none => none
    else
      match parseDigits (c :: cs) with
      | some n => some ((n : Int))
      | none => none

/-- From `mymodel.cpp` (`MyModel::penStyleToString`): canonical name for the
six known `Qt::PenStyle` values, `"Qt::PenStyle(<N>)"` fallback otherwise.
The style is carried as the integer it is stored with (`int(Qt::PenStyle)`:
NoPen = 0, SolidLine = 1, DashLine = 2, DotLine = 3, DashDotLine = 4,
DashDotDotLine = 5). -/
def penStyleToString (style : Int) : QStr :=
  if style = 0 then "Qt::NoPen".toList
  else if style = 1 then "Qt::SolidLine".toList
  else if style = 2 then "Qt::DashLine".toList
  else if style = 3 then "Qt::DotLine".toList
  else if style = 4 then "Qt::DashDotLine".toList
  else if style = 5 then "Qt::DashDotDotLine".toList
  else "Qt::PenStyle(".toList ++ intChars style ++ [')']

/-- The table of the six canonical style names paired with their codes
(as listed in the `switch` of `MyModel::penStyleToString`). -/
def styleNameTable : List (QStr × Int) :=
  [("Qt::NoPen".toList, 0),
   ("Qt::SolidLine".toList, 1),
   ("Qt::DashLine".toList, 2),
   ("Qt::DotLine".toList, 3),
   ("Qt::DashDotLine".toList, 4),
   ("Qt::DashDotDotLine".toList, 5)]

/-- Remove a leading literal from a character list, or fail. -/
def chopFront : QStr → QStr → Option QStr
  | [], cs => some cs
  | _ :: _, [] => none
  | p :: ps, c :: cs => if p = c then chopFront ps cs else none

/-- `QString::trimmed()`: strip leading and trailing whitespace. -/
def trimChars (cs : QStr) : QStr :=
  ((cs.dropWhile Char.isWhitespace).reverse.dropWhile Char.isWhitespace).reverse

/-- Step (b) of `MyModel::penStyleFromString`: the `"Qt::PenStyle(<N>)"`
wrapped-integer form. -/
def parseWrappedStyle (cs : QStr) : Option Int :=
  match chopFront "Qt::PenStyle(".toList cs with
  | none => none
  | some rest =>
    match rest.reverse with
    | ')' :: mid => parseIntChars mid.reverse
    | _ => none

/-- Modelled from the spec: `MyModel::penStyleFromString` is declared in
`mymodel.h` but its implementation is not among the sources; spec §4.2
(*fromString*) says it tries, in order: (a) parse the text as a bare
integer; (b) match the `"Qt::PenStyle(<N>)"` wrapped-integer form; (c) exact
match against the 6 canonical names; on failure it reports unsuccessful and
returns the fallback *solid* (= 1).  Returns `(style, ok)` modelling the
`(return value, *ok)` pair. -/
def penStyleFromString (cs : QStr) : Int × Bool :=
  match parseIntChars cs with
  | some n => (n, true)
  | none =>
    match parseWrappedStyle cs with
    | some n => (n, true)
    | none =>
      match (styleNameTable.find? (fun p => p.1 = cs)).map Prod.snd with
      | some n => (n, true)
      | none => (1, false)

/-- The row record type `MyRect` (fields as used by `mymodel.cpp`: pen
colour, pen style stored as `int(Qt::PenStyle)`, pen width, left, top,
width, height).  Its own header is not among the sources. -/
structure MyRect where
  penColor : Rgb
  penStyle : Int
  penWidth : Int
  left : Int
  top : Int
  width : Int
  height : Int
deriving DecidableEq, Repr

/-- Modelled from the spec: the default-constructed `MyRect{}` (`myrect.h`
is not among the sources; spec §3 fixes the default values: black, solid,
width 1, position (0,0), size (10,10)). -/
def defaultMyRect : MyRect :=
  { penColor := ⟨0, 0, 0⟩
    penStyle := 1
    penWidth := 1
    left := 0
    top := 0
    width := 10
    height := 10 }

/-- Model of the `QVariant` values exchanged with the model: empty, `int`,
`QString`, valid `QColor`, or the `QIcon` built from a colour. -/
inductive QVariant where
  | empty : QVariant
  | vInt (n : Int) : QVariant
  | vString (s : QStr) : QVariant
  | vColor (c : Rgb) : QVariant
  | vIcon (c : Rgb) : QVariant
deriving DecidableEq, Repr

/-- `QVariant::toInt()` as used by `MyModel::setData`: an `int` variant
yields its value, a string variant parses decimally (0 on failure, as Qt
returns), anything else yields 0. -/
def variantToInt : QVariant → Int
  | .vInt n => n
  | .vString s => (parseIntChars s).getD 0
  | _ => 0

/-- The colour extraction of `MyModel::setData`'s `PenColor` branch: a
`QColor` variant is used directly; otherwise the value's string form is
parsed as a colour (`QColor(value.toString().trimmed())`); `none` models an
invalid resulting `QColor`. -/
def variantToColor : QVariant → Option Rgb
  | .vColor c => some c
  | .vString s => parseColorChars (trimChars s)
  | _ => none

/-- `QVariant::toString()` as used by `MyModel::setHeaderData`: strings pass
through, ints format decimally, colours give their name, others give the
empty string. -/
def variantToString : QVariant → QStr
  | .vString s => s
  | .vInt n => intChars n
  | .vColor c => colorName c
  | _ => []

/-- The model's state: the record container `m_vector` and the mutable
header list `m_headerData` (initialised in the `MyModel` constructor). -/
structure MyModel where
  m_vector : List MyRect
  m_headerData : List QStr
deriving DecidableEq, Repr

/-- The header list the `MyModel` constructor installs. -/
def initialHeaderData : List QStr :=
  ["PenColor".toList, "PenStyle".toList, "PenWidth".toList, "Left".toList,
   "Top".toList, "Width".toList, "Height".toList]

/-- A freshly constructed `MyModel` (empty container, schema headers). -/
def MyModel.new : MyModel :=
  { m_vector := [], m_headerData := initialHeaderData }

/-- `MyModel::columnCountValue()`: the fixed column count (7). -/
def columnCountValue : Int := 7

/-- `MyModel::rowCount`: 0 for a valid parent (flat table), else the
container size. -/
def MyModel.rowCount (m : MyModel) (parentValid : Bool) : Int :=
  if parentValid then 0 else m.m_vector.length

/-- `MyModel::columnCount`: 0 for a valid parent, else 7. -/
def MyModel.columnCount (_m : MyModel) (parentValid : Bool) : Int :=
  if parentValid then 0 else columnCountValue

/-- From `mymodel.cpp` (`MyModel::data`): per-role, per-column cell read.
Bounds checks mirror the source (the source's initial `index.isValid()`
check is subsumed by them); role dispatch order is EditRole, DisplayRole,
DecorationRole as in the source. -/
def MyModel.data (m : MyModel) (row col : Int) (role : Nat) : QVariant :=
  if row < 0 ∨ (m.m_vector.length : Int) ≤ row then .empty
  else if col < 0 ∨ columnCountValue ≤ col then .empty
  else
    let r := m.m_vector.getD row.toNat defaultMyRect
    if role = editRole then
      if col = 0 then .vColor r.penColor
      else if col = 1 then .vInt r.penStyle
      else if col = 2 then .vInt r.penWidth
      else if col = 3 then .vInt r.left
      else if col = 4 then .vInt r.top
      else if col = 5 then .vInt r.width
      else .vInt r.height
    else if role = displayRole then
      if col = 0 then .vString (colorName r.penColor)
      else if col = 1 then .vString (penStyleToString r.penStyle)
      else if col = 2 then .vInt r.penWidth
      else if col = 3 then .vInt r.left
      else if col = 4 then .vInt r.top
      else if col = 5 then .vInt r.width
      else .vInt r.height
    else if role = decorationRole ∧ col = 0 then .vIcon r.penColor
    else .empty

/-- One `dataChanged(topLeft, bottomRight, roles)` emission of
`MyModel::setData` (a single cell, so topLeft = bottomRight = (row, col)). -/
structure DataChangedE where
  row : Int
  col : Int
  roles : List Nat
deriving DecidableEq, Repr

/-- Result of `MyModel::setData`: the returned boolean, the model state
afterwards, and the `dataChanged` emissions performed. -/
structure SetDataResult where
  ok : Bool
  model : MyModel
  emitted : List DataChangedE
deriving DecidableEq, Repr

/-- From `mymodel.cpp` (`MyModel::setData`): only `Qt::EditRole` is
accepted; bounds are checked; the `PenColor` column parses/validates a
colour (rejecting with no mutation on an invalid one); the other columns
store `value.toInt()`.  If the parsed value equals the stored one the call
succeeds with no emission; otherwise the single cell is updated and one
`dataChanged(index, index)` is emitted — the source passes *no* roles
vector, so the emission's role list is empty.  The source's
`case Column::Count: return false` is unreachable (col < 7). -/
def MyModel.setData (m : MyModel) (row col : Int) (value : QVariant) (role : Nat) :
    SetDataResult :=
  if role ≠ editRole then ⟨false, m, []⟩
  else if row < 0 ∨ (m.m_vector.length : Int) ≤ row then ⟨false, m, []⟩
  else if col < 0 ∨ columnCountValue ≤ col then ⟨false, m, []⟩
  else
    let r := m.m_vector.getD row.toNat defaultMyRect
    let upd : Option MyRect :=
      if col = 0 then (variantToColor value).map (fun c => { r with penColor := c })
      else if col = 1 then some { r with penStyle := variantToInt value }
      else if col = 2 then some { r with penWidth := variantToInt value }
      else if col = 3 then some { r with left := variantToInt value }
      else if col = 4 then some { r with top := variantToInt value }
      else if col = 5 then some { r with width := variantToInt value }
      else some { r with height := variantToInt value }
    match upd with
    | none => ⟨false, m, []⟩
    | some rNew =>
      if rNew = r then ⟨true, m, []⟩
      else ⟨true, { m with m_vector := m.m_vector.set row.toNat rNew },
            [⟨row, col, []⟩]⟩

/-- From `mymodel.cpp` (`MyModel::insertRows`): fails on a valid parent or
`count <= 0`; otherwise clamps `row` into `[0, size]` and inserts `count`
default-constructed records at that position. -/
def MyModel.insertRows (m : MyModel) (row count : Int) (parentValid : Bool) :
    Bool × MyModel :=
  if parentValid then (false, m)
  else if count ≤ 0 then (false, m)
  else
    let pos : Int :=
      if row < 0 then 0
      else if (m.m_vector.length : Int) < row then (m.m_vector.length : Int)
      else row
    (true, { m with m_vector :=
      m.m_vector.take pos.toNat ++ List.replicate count.toNat defaultMyRect ++
      m.m_vector.drop pos.toNat })

/-- `Qt::Orientation`. -/
inductive QtOrientation where
  | horizontal : QtOrientation
  | vertical : QtOrientation
deriving DecidableEq, Repr

/-- From `mymodel.cpp` (`MyModel::headerData`): DisplayRole only;
horizontal headers come from `m_headerData` (empty variant out of range);
vertical headers are `section + 1`. -/
def MyModel.headerData (m : MyModel) (sec : Int) (o : QtOrientation) (role : Nat) :
    QVariant :=
  if role ≠ displayRole then .empty
  else
    match o with
    | .horizontal =>
      if 0 ≤ sec ∧ sec < (m.m_headerData.length : Int) then
        .vString (m.m_headerData.getD sec.toNat [])
      else .empty
    | .vertical => .vInt (sec + 1)

/-- One `headerDataChanged(orientation, first, last)` emission. -/
structure HeaderChangedE where
  orientation : QtOrientation
  first : Int
  last : Int
deriving DecidableEq, Repr

/-- From `mymodel.cpp` (`MyModel::setHeaderData`): only
`Qt::EditRole` + `Qt::Horizontal` + an in-range section are accepted; on
success the header text is replaced with `value.toString()` and one
`headerDataChanged(orientation, section, section)` is emitted. -/
def MyModel.setHeaderData (m : MyModel) (sec : Int) (o : QtOrientation)
    (value : QVariant) (role : Nat) : Bool × MyModel × List HeaderChangedE :=
  if role ≠ editRole then (false, m, [])
  else if o ≠ QtOrientation.horizontal then (false, m, [])
  else if sec < 0 ∨ (m.m_headerData.length : Int) ≤ sec then (false, m, [])
  else (true,
        { m with m_headerData := m.m_headerData.set sec.toNat (variantToString value) },
        [⟨o, sec, sec⟩])

/-- The kinds of `QEvent` the delegate's `editorEvent` distinguishes. -/
inductive QEventKind where
  | mouseButtonDblClick : QEventKind
  | otherEvent : QEventKind
deriving DecidableEq, Repr

/-- The mouse buttons the delegate's `editorEvent` distinguishes. -/
inductive MouseButton where
  | leftButton : MouseButton
  | otherButton : MouseButton
deriving DecidableEq, Repr

/-- `MyDelegate`'s `kPenColorColumn` (column 0). -/
def kPenColorColumn : Int := 0

/-- Result of `MyDelegate::editorEvent`: the returned boolean, whether the
call deferred to `QStyledItemDelegate::editorEvent`, the model state
afterwards, and the edit-role `setData` calls performed as
(row, column, value) triples. -/
structure EditorEventRes where
  handled : Bool
  deferred : Bool
  model : MyModel
  writes : List (Int × Int × QVariant)
deriving DecidableEq, Repr

/-- From `mydelegate.cpp` (`MyDelegate::editorEvent`): unless the index is
valid, the column is `kPenColorColumn`, the event is a double-click and the
button is the left one, the call defers to the base class (whose return
value is the `baseResult` parameter).  Otherwise a modal colour dialog runs;
its outcome is the `dialogChoice` parameter (`none` models an invalid
returned colour, i.e. cancel).  On cancel the event is consumed with no
write; on a chosen colour exactly one edit-role `setData` of that colour is
performed.  The source's null-model check and the read of the current colour
used to seed the dialog do not affect the outcome and are omitted. -/
def MyDelegate.editorEvent (m : MyModel) (row col : Int) (indexValid : Bool)
    (evKind : QEventKind) (button : MouseButton) (dialogChoice : Option Rgb)
    (baseResult : Bool) : EditorEventRes :=
  if ¬indexValid ∨ col ≠ kPenColorColumn then ⟨baseResult, true, m, []⟩
  else if evKind ≠ QEventKind.mouseButtonDblClick then ⟨baseResult, true, m, []⟩
  else if button ≠ MouseButton.leftButton then ⟨baseResult, true, m, []⟩
  else
    match dialogChoice with
    | none => ⟨true, false, m, []⟩
    | some c =>
      ⟨true, false, (m.setData row col (QVariant.vColor c) editRole).model,
       [(row, col, QVariant.vColor c)]⟩

/-- Split a character list at every occurrence of `sep`, keeping empty
parts (the semantics of `QString::split`). -/
def splitChar (sep : Char) : QStr → List QStr
  | [] => [[]]
  | c :: cs =>
    if c = sep then [] :: splitChar sep cs
    else
      match splitChar sep cs with
      | [] => [[c]]
      | f :: rest => (c :: f) :: rest

/-- Join character lists with a separator (the semantics of
`QStringList::join`). -/
def joinSep (sep : Char) : List QStr → QStr
  | [] => []
  | [f] => f
  | f :: fs => f ++ sep :: joinSep sep fs

/-- One TSV record line: the 7 fields in schema order (colour as
`#RRGGBB`, style via `penStyleToString`, five decimal integers) joined by
tabs. -/
def encodeTsvLine (r : MyRect) : QStr :=
  joinSep '\t'
    [colorName r.penColor, penStyleToString r.penStyle, intChars r.penWidth,
     intChars r.left, intChars r.top, intChars r.width, intChars r.height]

/-- Modelled from the spec: `MyModel::saveToTsv(QIODevice&)` is declared in
`mymodel.h` but its implementation is not among the sources; spec §4.3
(*save*) says it writes one line per record — 7 tab-separated fields in
schema order, colour as `#RRGGBB`, style via `toString`, decimal integers —
each terminated by a newline.  The device-state precondition (open,
writable) concerns the I/O wrapper and is outside this pure text
serialisation. -/
def MyModel.saveToTsv (m : MyModel) : QStr :=
  (m.m_vector.map (fun r => encodeTsvLine r ++ ['\n'])).flatten

/-- A structured per-line load failure (rendered into the diagnostic
message together with the 1-based line number). -/
inductive TsvLineErr where
  | wrongFieldCount (n : Nat) : TsvLineErr
  | badColor (f : QStr) : TsvLineErr
  | badStyle (f : QStr) : TsvLineErr
  | badInt (fieldName : QStr) (f : QStr) : TsvLineErr
deriving DecidableEq, Repr

/-- Modelled from the spec (part of `loadFromTsv`, spec §4.3 *load*): split
one non-blank line on tabs; require exactly 7 fields; field 1 must be a
valid colour, field 2 a style accepted by `penStyleFromString`, fields 3–7
base-10 integers. -/
def parseTsvLine (l : QStr) : Except TsvLineErr MyRect :=
  match splitChar '\t' l with
  | [f0, f1, f2, f3, f4, f5, f6] =>
    match parseColorChars f0 with
    | none => .error (.badColor f0)
    | some c =>
      match penStyleFromString f1 with
      | (_, false) => .error (.badStyle f1)
      | (st, true) =>
        match parseIntChars f2 with
        | none => .error (.badInt "PenWidth".toList f2)
        | some pw =>
          match parseIntChars f3 with
          | none => .error (.badInt "Left".toList f3)
          | some lf =>
            match parseIntChars f4 with
            | none => .error (.badInt "Top".toList f4)
            | some tp =>
              match parseIntChars f5 with
              | none => .error (.badInt "Width".toList f5)
              | some wd =>
                match parseIntChars f6 with
                | none => .error (.badInt "Height".toList f6)
                | some hg => .ok ⟨c, st, pw, lf, tp, wd, hg⟩
  | fs => .error (.wrongFieldCount fs.length)

/-- Render a per-line failure with its 1-based line number into the
human-readable diagnostic string `loadFromTsv` reports. -/
def renderTsvErr (lineNo : Nat) (e : TsvLineErr) : QStr :=
  "line ".toList ++ natChars lineNo ++ ": ".toList ++
  (match e with
   | .wrongFieldCount n => "expected 7 fields, got ".toList ++ natChars n
   | .badColor f => "invalid color: ".toList ++ f
   | .badStyle f => "invalid pen style: ".toList ++ f
   | .badInt fieldName f =>
     "invalid integer for ".toList ++ fieldName ++ ": ".toList ++ f)

/-- A blank / whitespace-only line (skipped by `loadFromTsv`). -/
def isBlankLine (l : QStr) : Bool :=
  l.all Char.isWhitespace

/-- Modelled from the spec (the line loop of `loadFromTsv`, spec §4.3):
parse the lines in order into a temporary record list, skipping
blank/whitespace-only lines (which still advance the line number), and stop
at the first failure with its rendered diagnostic. -/
def loadRecordsAux : Nat → List QStr → Except QStr (List MyRect)
  | _, [] => .ok []
  | lineNo, l :: ls =>
    if isBlankLine l then loadRecordsAux (lineNo + 1) ls
    else
      match parseTsvLine l with
      | .error e => .error (renderTsvErr lineNo e)
      | .ok r =>
        match loadRecordsAux (lineNo + 1) ls with
        | .error e => .error e
        | .ok rs => .ok (r :: rs)

/-- Modelled from the spec: `MyModel::loadFromTsv(QIODevice&)` is declared
in `mymodel.h` but its implementation is not among the sources; its header
comment and spec §4.3 (*load*) fix the algorithm: read the text line by
line, parse every line into a temporary collection, and either replace the
whole container on full success (one model reset) or fail with a diagnostic
and leave the model untouched.  The input is the streamed text; the
device-state precondition (open, readable) concerns the I/O wrapper and is
outside this pure deserialisation.  Returns (success, model after, error
message — empty on success). -/
def MyModel.loadFromTsv (m : MyModel) (input : QStr) : Bool × MyModel × QStr :=
  match loadRecordsAux 1 (splitChar '\n' input) with
  | .ok rs => (true, { m with m_vector := rs }, [])
  | .error e => (false, m, e)

/-- The three accepted spellings of a style field on the input side of the
TSV format (claim C2's "accepted style-string variants"). -/
inductive StyleVariant where
  | canonical : StyleVariant
  | bareInt : StyleVariant
  | wrapped : StyleVariant
deriving DecidableEq, Repr

/-- Spell a style code in one of the accepted variants: the canonical
rendering (`penStyleToString`), the bare integer, or the wrapped-integer
form. -/
def styleVariantChars : StyleVariant → Int → QStr
  | .canonical, n => penStyleToString n
  | .bareInt, n => intChars n
  | .wrapped, n => "Qt::PenStyle(".toList ++ intChars n ++ [')']

/-- A record line whose style field is spelled in the given variant (the
other six fields as `encodeTsvLine` writes them). -/
def encodeTsvLineVariant (v : StyleVariant) (r : MyRect) : QStr :=
  joinSep '\t'
    [colorName r.penColor, styleVariantChars v r.penStyle, intChars r.penWidth,
     intChars r.left, intChars r.top, intChars r.width, intChars r.height]

/-- The text of `saveToTsv` with each record's style field rewritten into
the chosen variant. -/
def styleVariantText (rs : List (MyRect × StyleVariant)) : QStr :=
  (rs.map (fun p => encodeTsvLineVariant p.2 p.1 ++ ['\n'])).flatten

/-- Claim C5: `insertRows` with `count ≤ 0` fails and leaves the model
unchanged; with `count > 0` and a root parent it succeeds and inserts
`count` default-valued records at position `max 0 (min row rowCount)` — so
a negative row inserts at 0 and a row beyond the end appends. -/
theorem c5_insertRows (m : MyModel) (row count : Int) :
    (count ≤ 0 → ∀ pv, m.insertRows row count pv = (false, m)) ∧
    (0 < count →
      (m.insertRows row count false).1 = true ∧
      (m.insertRows row count false).2.m_vector =
        m.m_vector.take (max 0 (min row (m.m_vector.length : Int))).toNat ++
        List.replicate count.toNat defaultMyRect ++
        m.m_vector.drop (max 0 (min row (m.m_vector.length : Int))).toNat) := by
  constructor
  · intro hc pv
    cases pv <;> simp [MyModel.insertRows, hc]
  · intro hc
    have hc2 : ¬ count ≤ 0 := by omega
    have hpos : (if row < 0 then (0 : Int)
        else if (m.m_vector.length : Int) < row then (m.m_vector.length : Int)
        else row) = max 0 (min row (m.m_vector.length : Int)) := by
      split_ifs <;> omega
    simp only [MyModel.insertRows, if_neg hc2, Bool.false_eq_true, if_false, hpos]
    exact ⟨trivial, trivial⟩

/-- Claim C6: `setData` fails — with no mutation and no change
notification — whenever the role is not the edit role, the row or column is
out of range, or (for the colour column) the value parses to an invalid
colour; the model afterwards equals the model before. -/
theorem c6_setData_rejects (m : MyModel) (row col : Int) (v : QVariant) (role : Nat)
    (h : role ≠ editRole ∨ row < 0 ∨ (m.m_vector.length : Int) ≤ row ∨
         col < 0 ∨ columnCountValue ≤ col ∨
         (col = 0 ∧ variantToColor v = none)) :
    m.setData row col v role = ⟨false, m, []⟩ := by
  simp only [MyModel.setData]
  by_cases h1 : role ≠ editRole
  · simp [h1]
  · by_cases h2 : row < 0 ∨ (m.m_vector.length : Int) ≤ row
    · simp [h1, h2]
    · by_cases h3 : col < 0 ∨ columnCountValue ≤ col
      · simp [h1, h2, h3]
      · push_neg at h1
        have hc0 : col = 0 ∧ variantToColor v = none := by
          rcases h with h | h | h | h | h | h
          · exact absurd h1 h
          · exact absurd (Or.inl h) h2
          · exact absurd (Or.inr h) h2
          · exact absurd (Or.inl h) h3
          · exact absurd (Or.inr h) h3
          · exact h
        rcases hc0 with ⟨hc, hv⟩
        subst hc
        simp [h1, h2, h3, hv]

/-- Claim C4: an edit-role `setData` whose parsed/validated value equals
the value the cell already holds returns success, emits no change
notification and leaves the model unchanged (every valid cell, i.e. every
column 0–6). -/
theorem c4_setData_noop (m : MyModel) (row col : Int) (v : QVariant)
    (hr0 : 0 ≤ row) (hr1 : row < (m.m_vector.length : Int))
    (hsame :
      (col = 0 ∧ variantToColor v = some (m.m_vector.getD row.toNat defaultMyRect).penColor) ∨
      (col = 1 ∧ variantToInt v = (m.m_vector.getD row.toNat defaultMyRect).penStyle) ∨
      (col = 2 ∧ variantToInt v = (m.m_vector.getD row.toNat defaultMyRect).penWidth) ∨
      (col = 3 ∧ variantToInt v = (m.m_vector.getD row.toNat defaultMyRect).left) ∨
      (col = 4 ∧ variantToInt v = (m.m_vector.getD row.toNat defaultMyRect).top) ∨
      (col = 5 ∧ variantToInt v = (m.m_vector.getD row.toNat defaultMyRect).width) ∨
      (col = 6 ∧ variantToInt v = (m.m_vector.getD row.toNat defaultMyRect).height)) :
    m.setData row col v editRole = ⟨true, m, []⟩ := by
  have h2 : ¬ (row < 0 ∨ (m.m_vector.length : Int) ≤ row) := by omega
  have h3 : ¬ (col < 0 ∨ columnCountValue ≤ col) := by
    simp only [columnCountValue]
    rcases hsame with ⟨hc, _⟩ | ⟨hc, _⟩ | ⟨hc, _⟩ | ⟨hc, _⟩ | ⟨hc, _⟩ | ⟨hc, _⟩ | ⟨hc, _⟩ <;>
      omega
  simp only [MyModel.setData, h2, h3, if_false, ne_eq, not_true_eq_false,
    ite_false, if_neg]
  rcases hsame with ⟨hc, hv⟩ | ⟨hc, hv⟩ | ⟨hc, hv⟩ | ⟨hc, hv⟩ | ⟨hc, hv⟩ | ⟨hc, hv⟩ | ⟨hc, hv⟩ <;>
    subst hc <;> simp [hv]

/-- Claim C7: in every reachable state and in-range row, the colour
column's display value is the `"#rrggbb"` name of the exact colour its edit
value returns, and the style column's display value is
`penStyleToString` of the exact integer its edit value returns — one of the
6 canonical names when the integer is a known style, the
`"Qt::PenStyle(<N>)"` fallback with that same integer otherwise. -/
theorem c7_role_consistency (m : MyModel) (row : Int)
    (hr0 : 0 ≤ row) (hr1 : row < (m.m_vector.length : Int)) :
    (∀ c, m.data row 0 editRole = .vColor c →
       m.data row 0 displayRole = .vString (colorName c)) ∧
    (∀ n, m.data row 1 editRole = .vInt n →
       m.data row 1 displayRole = .vString (penStyleToString n) ∧
       ((0 ≤ n ∧ n ≤ 5) →
         penStyleToString n ∈
           ["Qt::NoPen".toList, "Qt::SolidLine".toList, "Qt::DashLine".toList,
            "Qt::DotLine".toList, "Qt::DashDotLine".toList,
            "Qt::DashDotDotLine".toList]) ∧
       (¬(0 ≤ n ∧ n ≤ 5) →
         penStyleToString n = "Qt::PenStyle(".toList ++ intChars n ++ [')'])) := by
  have h2 : ¬ (row < 0 ∨ (m.m_vector.length : Int) ≤ row) := by omega
  constructor
  · intro c hc
    simp only [MyModel.data, h2, if_false, editRole, displayRole] at hc ⊢
    simp only [columnCountValue] at hc ⊢
    norm_num at hc ⊢
    rw [hc]
  · intro n hn
    refine ⟨?_, ?_, ?_⟩
    · simp only [MyModel.data, h2, if_false, editRole, displayRole, columnCountValue] at hn ⊢
      norm_num at hn ⊢
      rw [hn]
    · rintro ⟨hn0, hn5⟩
      interval_cases n <;> simp [penStyleToString]
    · intro hout
      simp only [penStyleToString]
      rw [if_neg (by omega), if_neg (by omega), if_neg (by omega),
          if_neg (by omega), if_neg (by omega), if_neg (by omega)]

/-- Claim C10: for an in-range section, `setHeaderData` with horizontal
orientation and the edit role succeeds, replaces that column's header text
with the string form of the value (so a later `headerData` query returns
the new text) and emits one header-change notification; any call with a
non-edit role, non-horizontal orientation or out-of-range section fails and
changes nothing. -/
theorem c10_setHeaderData (m : MyModel) (sec : Int) (value : QVariant) :
    (0 ≤ sec → sec < (m.m_headerData.length : Int) →
      m.setHeaderData sec .horizontal value editRole =
        (true,
         { m with m_headerData := m.m_headerData.set sec.toNat (variantToString value) },
         [⟨.horizontal, sec, sec⟩]) ∧
      (m.setHeaderData sec .horizontal value editRole).2.1.headerData sec .horizontal
          displayRole = .vString (variantToString value)) ∧
    (∀ o role, (role ≠ editRole ∨ o ≠ QtOrientation.horizontal ∨ sec < 0 ∨
        (m.m_headerData.length : Int) ≤ sec) →
      m.setHeaderData sec o value role = (false, m, [])) := by
  constructor
  · intro hs0 hs1
    have h3 : ¬ (sec < 0 ∨ (m.m_headerData.length : Int) ≤ sec) := by omega
    constructor
    · simp [MyModel.setHeaderData, h3]
    · simp only [MyModel.setHeaderData, h3, if_false, ne_eq, not_true_eq_false, if_neg]
      simp only [MyModel.headerData]
      rw [if_neg (by simp [displayRole]), if_pos (by simp; omega)]
      have hlt : sec.toNat < m.m_headerData.length := by omega
      simp [List.getD, List.getElem?_set_self, hlt]
  · intro o role h
    rcases h with h | h | h | h
    · simp [MyModel.setHeaderData, h]
    · simp [MyModel.setHeaderData, h]
    · by_cases he : role = editRole
      · by_cases ho : o = QtOrientation.horizontal
        · simp [MyModel.setHeaderData, he, ho]
          omega
        · simp [MyModel.setHeaderData, he, ho]
      · simp [MyModel.setHeaderData, he]
    · by_cases he : role = editRole
      · by_cases ho : o = QtOrientation.horizontal
        · simp [MyModel.setHeaderData, he, ho]
          omega
        · simp [MyModel.setHeaderData, he, ho]
      · simp [MyModel.setHeaderData, he]

/-- Claim C9: the delegate's `editorEvent` defers to default handling
unless the index is valid, the column is the colour column, the event is a
double-click and the button is the left one; when all four hold it reports
the event handled in both dialog outcomes, performs no write when the
picker is cancelled, and performs exactly one edit-role write of the chosen
colour when it is confirmed. -/
theorem c9_editorEvent (m : MyModel) (row col : Int) (indexValid : Bool)
    (evKind : QEventKind) (button : MouseButton) (dialogChoice : Option Rgb)
    (baseResult : Bool) :
    (¬(indexValid = true ∧ col = kPenColorColumn ∧
        evKind = QEventKind.mouseButtonDblClick ∧ button = MouseButton.leftButton) →
      MyDelegate.editorEvent m row col indexValid evKind button dialogChoice baseResult
        = ⟨baseResult, true, m, []⟩) ∧
    (indexValid = true → col = kPenColorColumn →
     evKind = QEventKind.mouseButtonDblClick → button = MouseButton.leftButton →
      (MyDelegate.editorEvent m row col indexValid evKind button dialogChoice
          baseResult).handled = true ∧
      (MyDelegate.editorEvent m row col indexValid evKind button dialogChoice
          baseResult).deferred = false ∧
      (dialogChoice = none →
        MyDelegate.editorEvent m row col indexValid evKind button dialogChoice
          baseResult = ⟨true, false, m, []⟩) ∧
      (∀ c, dialogChoice = some c →
        (MyDelegate.editorEvent m row col indexValid evKind button dialogChoice
            baseResult).writes = [(row, col, QVariant.vColor c)] ∧
        (MyDelegate.editorEvent m row col indexValid evKind button dialogChoice
            baseResult).model =
          (m.setData row col (QVariant.vColor c) editRole).model)) := by
  constructor
  · intro h
    simp only [MyDelegate.editorEvent]
    split_ifs with h1 h2 h3
    · rfl
    · rfl
    · rfl
    · exfalso
      push_neg at h1
      exact h ⟨h1.1, h1.2, not_not.mp h2, not_not.mp h3⟩
  · intro hi hc he hb
    have h1 : ¬ (¬ indexValid = true ∨ col ≠ kPenColorColumn) := by simp [hi, hc]
    simp only [MyDelegate.editorEvent, if_neg h1]
    rw [if_neg (by simp [he]), if_neg (by simp [hb])]
    cases dialogChoice with
    | none => simp
    | some c => simp

/-- Claim C3 (refutation): the spec says an actual edit-role change to the
colour column emits `dataChanged` tagged with the role set
display+edit+decoration, but `MyModel::setData` in `mymodel.cpp` emits
`dataChanged(index, index)` with no roles vector: changing the colour of a
fresh row emits exactly one notification for that cell whose role list is
empty, not the claimed set. -/
theorem c3_setData_roles_empty :
    ((MyModel.new.insertRows 0 1 false).2.setData 0 0 (QVariant.vColor ⟨255, 0, 0⟩)
        editRole).ok = true ∧
    ((MyModel.new.insertRows 0 1 false).2.setData 0 0 (QVariant.vColor ⟨255, 0, 0⟩)
        editRole).emitted = [⟨0, 0, []⟩] := by
  decide

/-- Witness for C4: rewriting the default pen width (1) into a fresh row
succeeds with no emission. -/
theorem c4_witness :
    (MyModel.new.insertRows 0 1 false).2.setData 0 2 (QVariant.vInt 1) editRole =
      ⟨true, (MyModel.new.insertRows 0 1 false).2, []⟩ :=
  c4_setData_noop _ 0 2 _ (by decide) (by decide)
    (Or.inr (Or.inr (Or.inl ⟨rfl, by decide⟩)))

/-- Witness for C5 at concrete inputs (append far past the end; zero
count). -/
theorem c5_witness :
    ((MyModel.new.insertRows 5 2 false).1 = true) ∧
    (MyModel.new.insertRows 0 0 false = (false, MyModel.new)) :=
  ⟨((c5_insertRows MyModel.new 5 2).2 (by decide)).1,
   (c5_insertRows MyModel.new 0 0).1 (by decide) false⟩

/-- Witness for C6: writing an unparseable colour string to the colour
column of a one-row model fails and changes nothing. -/
theorem c6_witness :
    (MyModel.new.insertRows 0 1 false).2.setData 0 0
        (QVariant.vString "NOT_A_COLOR".toList) editRole =
      ⟨false, (MyModel.new.insertRows 0 1 false).2, []⟩ :=
  c6_setData_rejects _ 0 0 _ editRole
    (Or.inr (Or.inr (Or.inr (Or.inr (Or.inr ⟨rfl, by decide⟩)))))

/-- Witness for C7: a fresh default row displays the canonical name of its
stored style (solid = 1). -/
theorem c7_witness :
    (MyModel.new.insertRows 0 1 false).2.data 0 1 displayRole =
      .vString (penStyleToString 1) :=
  ((c7_role_consistency (MyModel.new.insertRows 0 1 false).2 0 (by decide)
      (by decide)).2 1 (by decide)).1

/-- Witness for C9: a confirmed pick writes exactly one edit-role colour
into the cell. -/
theorem c9_witness :
    (MyDelegate.editorEvent (MyModel.new.insertRows 0 1 false).2 0 0 true
        QEventKind.mouseButtonDblClick MouseButton.leftButton (some ⟨1, 2, 3⟩)
        false).writes = [(0, 0, QVariant.vColor ⟨1, 2, 3⟩)] :=
  (((c9_editorEvent (MyModel.new.insertRows 0 1 false).2 0 0 true
      QEventKind.mouseButtonDblClick MouseButton.leftButton (some ⟨1, 2, 3⟩)
      false).2 rfl rfl rfl rfl).2.2.2 ⟨1, 2, 3⟩ rfl).1

/-- Witness for C10: renaming header 1 succeeds; the same call with
vertical orientation fails and changes nothing. -/
theorem c10_witness :
    (MyModel.new.setHeaderData 1 .horizontal (QVariant.vString "Style".toList)
        editRole).1 = true ∧
    (MyModel.new.setHeaderData 1 .vertical (QVariant.vString "Style".toList)
        editRole) = (false, MyModel.new, []) :=
  ⟨by rw [((c10_setHeaderData MyModel.new 1 (QVariant.vString "Style".toList)).1
      (by decide) (by decide)).1],
   (c10_setHeaderData MyModel.new 1 (QVariant.vString "Style".toList)).2
     QtOrientation.vertical editRole (Or.inr (Or.inl (by decide)))⟩

theorem digitChar_bounds {d : Nat} (h : d < 10) :
    48 ≤ (Nat.digitChar d).toNat ∧ (Nat.digitChar d).toNat ≤ 57 := by
  interval_cases d <;> decide

theorem digitVal_digitChar {d : Nat} (h : d < 10) :
    digitVal (Nat.digitChar d) = some d := by
  interval_cases d <;> decide

theorem natChars_ne_nil (n : Nat) : natChars n ≠ [] := by
  rw [natChars]
  split_ifs <;> simp

theorem natChars_bounds (n : Nat) :
    ∀ c ∈ natChars n, 48 ≤ c.toNat ∧ c.toNat ≤ 57 := by
  induction n using Nat.strong_induction_on with
  | _ n ih =>
    rw [natChars]
    split_ifs with h
    · intro c hc
      simp only [List.mem_singleton] at hc
      subst hc
      exact digitChar_bounds h
    · intro c hc
      simp only [List.mem_append, List.mem_singleton] at hc
      rcases hc with hc | hc
      · exact ih (n / 10) (Nat.div_lt_self (by omega) (by omega)) c hc
      · subst hc
        exact digitChar_bounds (Nat.mod_lt _ (by omega))

theorem parseDigitsAux_append (acc : Nat) (l1 l2 : QStr) :
    parseDigitsAux acc (l1 ++ l2) =
      match parseDigitsAux acc l1 with
      | some a => parseDigitsAux a l2
      | none => none := by
  induction l1 generalizing acc with
  | nil => simp [parseDigitsAux]
  | cons c cs ih =>
    simp only [List.cons_append, parseDigitsAux]
    cases digitVal c with
    | none => rfl
    | some d => exact ih _

theorem parseDigitsAux_natChars (n : Nat) :
    ∃ p, 0 < p ∧ ∀ acc, parseDigitsAux acc (natChars n) = some (acc * p + n) := by
  induction n using Nat.strong_induction_on with
  | _ n ih =>
    by_cases h : n < 10
    · refine ⟨10, by omega, fun acc => ?_⟩
      rw [natChars, dif_pos h]
      simp only [parseDigitsAux, digitVal_digitChar h]
      congr 1
      omega
    · obtain ⟨p, hp, hall⟩ := ih (n / 10) (Nat.div_lt_self (by omega) (by omega))
      refine ⟨10 * p, by omega, fun acc => ?_⟩
      rw [natChars, dif_neg h, parseDigitsAux_append, hall acc]
      simp only [parseDigitsAux, digitVal_digitChar (Nat.mod_lt _ (show 0 < 10 by omega))]
      congr 1
      calc 10 * (acc * p + n / 10) + n % 10
          = acc * (10 * p) + (10 * (n / 10) + n % 10) := by ring
        _ = acc * (10 * p) + n := by rw [Nat.div_add_mod]

theorem parseDigits_natChars (n : Nat) : parseDigits (natChars n) = some n := by
  obtain ⟨p, hp, hall⟩ := parseDigitsAux_natChars n
  cases hnc : natChars n with
  | nil => exact absurd hnc (natChars_ne_nil n)
  | cons c cs =>
    show parseDigitsAux 0 (c :: cs) = some n
    have h0 := hall 0
    rw [hnc] at h0
    simpa using h0

theorem natChars_head_not_minus (n : Nat) :
    ∃ c cs, natChars n = c :: cs ∧ c ≠ '-' := by
  cases hnc : natChars n with
  | nil => exact absurd hnc (natChars_ne_nil n)
  | cons c cs =>
    refine ⟨c, cs, rfl, fun hEq => ?_⟩
    have hb := natChars_bounds n c (by rw [hnc]; exact List.mem_cons_self c cs)
    subst hEq
    revert hb
    decide

theorem parseIntChars_intChars (n : Int) : parseIntChars (intChars n) = some n := by
  rw [intChars]
  split_ifs with h
  · show parseIntChars ('-' :: natChars (-n).toNat) = some n
    simp only [parseIntChars, if_pos rfl, parseDigits_natChars, if_true]
    rw [Option.some.injEq]
    omega
  · obtain ⟨c, cs, hnc, hcm⟩ := natChars_head_not_minus n.toNat
    rw [hnc]
    simp only [parseIntChars, if_neg hcm, ← hnc, parseDigits_natChars]
    rw [Option.some.injEq]
    omega

theorem hexVal_digitChar : ∀ d : Fin 16, hexVal (Nat.digitChar d.val) = some d := by
  decide

theorem hexPair_hex2 (v : Fin 256) :
    hexPair (Nat.digitChar (v.val / 16)) (Nat.digitChar (v.val % 16)) = some v := by
  have h1 : v.val / 16 < 16 := by omega
  have h2 : v.val % 16 < 16 := Nat.mod_lt _ (by omega)
  have e1 := hexVal_digitChar ⟨v.val / 16, h1⟩
  have e2 := hexVal_digitChar ⟨v.val % 16, h2⟩
  simp only [hexPair, e1, e2]
  rw [Option.some.injEq, Fin.ext_iff]
  show 16 * (v.val / 16) + v.val % 16 = v.val
  omega

theorem parseColorChars_colorName (c : Rgb) :
    parseColorChars (colorName c) = some c := by
  show parseColorChars
      ('#' :: [Nat.digitChar (c.r.val / 16), Nat.digitChar (c.r.val % 16),
               Nat.digitChar (c.g.val / 16), Nat.digitChar (c.g.val % 16),
               Nat.digitChar (c.b.val / 16), Nat.digitChar (c.b.val % 16)]) = some c
  simp only [parseColorChars, hexPair_hex2]

theorem chopFront_append (p rest : QStr) : chopFront p (p ++ rest) = some rest := by
  induction p with
  | nil => rfl
  | cons c cs ih => simp [chopFront, ih]

theorem parseIntChars_styleLit (x : QStr) :
    parseIntChars ("Qt::PenStyle(".toList ++ x) = none := by
  show parseIntChars ('Q' :: ("t::PenStyle(".toList ++ x)) = none
  simp only [parseIntChars]
  rw [if_neg (by decide)]
  have : digitVal 'Q' = none := by decide
  simp [parseDigits, parseDigitsAux, this]

theorem parseWrappedStyle_wrap (n : Int) :
    parseWrappedStyle ("Qt::PenStyle(".toList ++ intChars n ++ [')']) = some n := by
  rw [List.append_assoc]
  simp only [parseWrappedStyle, chopFront_append]
  rw [List.reverse_append]
  simp only [List.reverse_cons, List.reverse_nil, List.nil_append, List.singleton_append]
  simp [List.reverse_reverse, parseIntChars_intChars]

theorem penStyleFromString_bare (n : Int) :
    penStyleFromString (intChars n) = (n, true) := by
  simp only [penStyleFromString, parseIntChars_intChars]

theorem penStyleFromString_wrapped (n : Int) :
    penStyleFromString ("Qt::PenStyle(".toList ++ intChars n ++ [')']) = (n, true) := by
  have ha := parseIntChars_styleLit (intChars n ++ [')'])
  rw [← List.append_assoc] at ha
  simp only [penStyleFromString, ha, parseWrappedStyle_wrap n]

theorem penStyleFromString_toString (n : Int) :
    penStyleFromString (penStyleToString n) = (n, true) := by
  by_cases h0 : n = 0
  · subst h0; decide
  by_cases h1 : n = 1
  · subst h1; decide
  by_cases h2 : n = 2
  · subst h2; decide
  by_cases h3 : n = 3
  · subst h3; decide
  by_cases h4 : n = 4
  · subst h4; decide
  by_cases h5 : n = 5
  · subst h5; decide
  rw [penStyleToString, if_neg h0, if_neg h1, if_neg h2, if_neg h3, if_neg h4, if_neg h5]
  exact penStyleFromString_wrapped n

theorem penStyleFromString_variant (v : StyleVariant) (n : Int) :
    penStyleFromString (styleVariantChars v n) = (n, true) := by
  cases v
  · exact penStyleFromString_toString n
  · exact penStyleFromString_bare n
  · exact penStyleFromString_wrapped n

/-- Claim C8: `penStyleFromString` tries, in order, the bare-integer
parse, the `"Qt::PenStyle(<N>)"` wrapped-integer form and the exact match
against the 6 canonical names, reporting success with the corresponding
style at the first step that matches; when none matches it reports failure
and returns the solid style (1) as fallback. -/
theorem c8_penStyleFromString (s : QStr) :
    (∀ n, parseIntChars s = some n → penStyleFromString s = (n, true)) ∧
    (parseIntChars s = none → ∀ n, parseWrappedStyle s = some n →
       penStyleFromString s = (n, true)) ∧
    (parseIntChars s = none → parseWrappedStyle s = none →
       ∀ n, (styleNameTable.find? (fun p => p.1 = s)).map Prod.snd = some n →
       penStyleFromString s = (n, true)) ∧
    (parseIntChars s = none → parseWrappedStyle s = none →
       (styleNameTable.find? (fun p => p.1 = s)).map Prod.snd = none →
       penStyleFromString s = (1, false)) := by
  refine ⟨?_, ?_, ?_, ?_⟩
  · intro n h
    simp only [penStyleFromString, h]
  · intro h1 n h2
    simp only [penStyleFromString, h1, h2]
  · intro h1 h2 n h3
    simp only [penStyleFromString, h1, h2, h3]
  · intro h1 h2 h3
    simp only [penStyleFromString, h1, h2, h3]

/-- Witness for C8: a canonical name resolves through step (c); an unknown
name falls through to the solid fallback with failure. -/
theorem c8_witness :
    penStyleFromString "Qt::DotLine".toList = (3, true) ∧
    penStyleFromString "Qt::SomeUnknownStyle".toList = (1, false) :=
  ⟨(c8_penStyleFromString _).2.2.1 (by decide) (by decide) 3 (by decide),
   (c8_penStyleFromString _).2.2.2 (by decide) (by decide) (by decide)⟩

theorem sep_notMem_natChars {c : Char} (hc : c.toNat < 48 ∨ 57 < c.toNat)
    (n : Nat) : c ∉ natChars n := by
  intro hmem
  have := natChars_bounds n c hmem
  omega

theorem sep_notMem_intChars {c : Char} (hc : c.toNat < 45 ∨ (45 < c.toNat ∧ c.toNat < 48) ∨ 57 < c.toNat)
    (n : Int) : c ∉ intChars n := by
  rw [intChars]
  split_ifs
  · intro hmem
    rcases List.mem_cons.mp hmem with h | h
    · subst h
      revert hc
      decide
    · exact sep_notMem_natChars (by omega) _ h
  · exact sep_notMem_natChars (by omega) _

theorem digitChar16_bounds : ∀ d : Fin 16,
    48 ≤ (Nat.digitChar d.val).toNat ∧ (Nat.digitChar d.val).toNat ≤ 102 ∧
    (Nat.digitChar d.val).toNat ≠ 58 := by
  decide

theorem mem_hex2_bounds {c : Char} {v : Fin 256} (h : c ∈ hex2 v) :
    48 ≤ c.toNat ∧ c.toNat ≤ 102 ∧ c.toNat ≠ 58 := by
  simp only [hex2, List.mem_cons, List.not_mem_nil, or_false] at h
  rcases h with h | h <;> subst h
  · exact digitChar16_bounds ⟨v.val / 16, by omega⟩
  · exact digitChar16_bounds ⟨v.val % 16, by omega⟩

theorem sep_notMem_colorName {c : Char}
    (hc : c.toNat < 35 ∨ (35 < c.toNat ∧ c.toNat < 48) ∨ 102 < c.toNat)
    (r : Rgb) : c ∉ colorName r := by
  intro hmem
  rcases List.mem_cons.mp hmem with h | h
  · subst h
    revert hc
    decide
  · rw [List.mem_append, List.mem_append] at h
    rcases h with (h | h) | h <;>
      { have := mem_hex2_bounds h
        omega }

theorem tab_nl_notMem_wrappedChars {c : Char} (hc : c = '\t' ∨ c = '\n') (n : Int) :
    c ∉ "Qt::PenStyle(".toList ++ intChars n ++ [')'] := by
  intro hmem
  rw [List.mem_append, List.mem_append] at hmem
  rcases hmem with (h | h) | h
  · rcases hc with hc | hc <;> subst hc <;> revert h <;> decide
  · rcases hc with hc | hc <;> subst hc <;>
      exact absurd h (sep_notMem_intChars (by decide) n)
  · rcases hc with hc | hc <;> subst hc <;> revert h <;> decide

theorem tab_nl_notMem_penStyleToString {c : Char} (hc : c = '\t' ∨ c = '\n')
    (n : Int) : c ∉ penStyleToString n := by
  rw [penStyleToString]
  split_ifs
  · rcases hc with h | h <;> subst h <;> decide
  · rcases hc with h | h <;> subst h <;> decide
  · rcases hc with h | h <;> subst h <;> decide
  · rcases hc with h | h <;> subst h <;> decide
  · rcases hc with h | h <;> subst h <;> decide
  · rcases hc with h | h <;> subst h <;> decide
  · exact tab_nl_notMem_wrappedChars hc n

theorem tab_nl_notMem_styleVariantChars {c : Char} (hc : c = '\t' ∨ c = '\n')
    (v : StyleVariant) (n : Int) : c ∉ styleVariantChars v n := by
  cases v
  · exact tab_nl_notMem_penStyleToString hc n
  · rcases hc with h | h <;> subst h <;> exact sep_notMem_intChars (by decide) n
  · exact tab_nl_notMem_wrappedChars hc n

theorem mem_joinSep {c sep : Char} : ∀ {fs : List QStr}, c ∈ joinSep sep fs →
    c = sep ∨ ∃ f ∈ fs, c ∈ f := by
  intro fs
  induction fs with
  | nil => intro h; simp [joinSep] at h
  | cons f fs ih =>
    intro h
    cases fs with
    | nil =>
      exact Or.inr ⟨f, by simp, by simpa [joinSep] using h⟩
    | cons g gs =>
      have hj : joinSep sep (f :: g :: gs) = f ++ sep :: joinSep sep (g :: gs) := rfl
      rw [hj, List.mem_append, List.mem_cons] at h
      rcases h with h | h | h
      · exact Or.inr ⟨f, by simp, h⟩
      · exact Or.inl h
      · rcases ih h with h2 | ⟨f2, hf2, hcf2⟩
        · exact Or.inl h2
        · exact Or.inr ⟨f2, by simp [hf2], hcf2⟩

theorem nl_notMem_encodeTsvLineVariant (v : StyleVariant) (r : MyRect) :
    '\n' ∉ encodeTsvLineVariant v r := by
  intro hmem
  rcases mem_joinSep hmem with h | ⟨f, hf, hcf⟩
  · exact absurd h (by decide)
  · simp only [List.mem_cons, List.not_mem_nil, or_false] at hf
    rcases hf with h | h | h | h | h | h | h <;> subst h
    · exact absurd hcf (sep_notMem_colorName (by decide) _)
    · exact absurd hcf (tab_nl_notMem_styleVariantChars (Or.inr rfl) v _)
    · exact absurd hcf (sep_notMem_intChars (by decide) _)
    · exact absurd hcf (sep_notMem_intChars (by decide) _)
    · exact absurd hcf (sep_notMem_intChars (by decide) _)
    · exact absurd hcf (sep_notMem_intChars (by decide) _)
    · exact absurd hcf (sep_notMem_intChars (by decide) _)

theorem splitChar_ne_nil (sep : Char) (cs : QStr) : splitChar sep cs ≠ [] := by
  induction cs with
  | nil => simp [splitChar]
  | cons c cs ih =>
    rw [splitChar]
    split_ifs
    · simp
    · cases h : splitChar sep cs with
      | nil => simp
      | cons f rest => simp

theorem splitChar_of_notMem {sep : Char} {f : QStr} (h : sep ∉ f) :
    splitChar sep f = [f] := by
  induction f with
  | nil => rfl
  | cons c cs ih =>
    have hcs : sep ∉ cs := fun hx => h (List.mem_cons_of_mem c hx)
    have hcne : ¬ c = sep := fun hx => h (hx ▸ List.mem_cons_self c cs)
    rw [splitChar, if_neg hcne, ih hcs]

theorem splitChar_append_cons {sep : Char} {f : QStr} (rest : QStr) (h : sep ∉ f) :
    splitChar sep (f ++ sep :: rest) = f :: splitChar sep rest := by
  induction f with
  | nil =>
    simp only [List.nil_append]
    rw [splitChar, if_pos rfl]
  | cons c cs ih =>
    have hcs : sep ∉ cs := fun hx => h (List.mem_cons_of_mem c hx)
    have hcne : ¬ c = sep := fun hx => h (hx ▸ List.mem_cons_self c cs)
    rw [List.cons_append, splitChar, if_neg hcne, ih hcs]

theorem splitChar_joinSep {sep : Char} : ∀ {fs : List QStr}, fs ≠ [] →
    (∀ f ∈ fs, sep ∉ f) → splitChar sep (joinSep sep fs) = fs := by
  intro fs
  induction fs with
  | nil => intro h; exact absurd rfl h
  | cons f fs ih =>
    intro _ hall
    cases fs with
    | nil =>
      show splitChar sep (joinSep sep [f]) = [f]
      exact splitChar_of_notMem (hall f (by simp))
    | cons g gs =>
      have hj : joinSep sep (f :: g :: gs) = f ++ sep :: joinSep sep (g :: gs) := rfl
      rw [hj, splitChar_append_cons _ (hall f (by simp)),
          ih (by simp) (fun x hx => hall x (List.mem_cons_of_mem f hx))]

theorem splitChar_nl_flatten : ∀ (lines : List QStr),
    (∀ l ∈ lines, '\n' ∉ l) →
    splitChar '\n' ((lines.map (fun l => l ++ ['\n'])).flatten) = lines ++ [[]] := by
  intro lines
  induction lines with
  | nil => intro _; rfl
  | cons l ls ih =>
    intro hall
    rw [List.map_cons, List.flatten_cons, List.append_assoc, List.singleton_append,
        splitChar_append_cons _ (hall l (by simp)),
        ih (fun x hx => hall x (List.mem_cons_of_mem l hx))]
    rfl

theorem splitChar_encodeTsvLineVariant (v : StyleVariant) (r : MyRect) :
    splitChar '\t' (encodeTsvLineVariant v r) =
      [colorName r.penColor, styleVariantChars v r.penStyle, intChars r.penWidth,
       intChars r.left, intChars r.top, intChars r.width, intChars r.height] := by
  apply splitChar_joinSep (by simp)
  intro f hf
  simp only [List.mem_cons, List.not_mem_nil, or_false] at hf
  rcases hf with h | h | h | h | h | h | h <;> subst h
  · exact sep_notMem_colorName (by decide) _
  · exact tab_nl_notMem_styleVariantChars (Or.inl rfl) v _
  · exact sep_notMem_intChars (by decide) _
  · exact sep_notMem_intChars (by decide) _
  · exact sep_notMem_intChars (by decide) _
  · exact sep_notMem_intChars (by decide) _
  · exact sep_notMem_intChars (by decide) _

theorem parseTsvLine_encodeTsvLineVariant (v : StyleVariant) (r : MyRect) :
    parseTsvLine (encodeTsvLineVariant v r) = .ok r := by
  simp only [parseTsvLine, splitChar_encodeTsvLineVariant, parseColorChars_colorName,
    penStyleFromString_variant, parseIntChars_intChars]

theorem isBlankLine_encodeTsvLineVariant (v : StyleVariant) (r : MyRect) :
    isBlankLine (encodeTsvLineVariant v r) = false := by
  show isBlankLine ('#' :: _) = false
  simp only [isBlankLine, List.all_cons, Bool.and_eq_false_iff]
  left
  decide

theorem loadRecordsAux_encoded : ∀ (ps : List (MyRect × StyleVariant)) (k : Nat),
    loadRecordsAux k ((ps.map (fun p => encodeTsvLineVariant p.2 p.1)) ++ [[]]) =
      .ok (ps.map Prod.fst) := by
  intro ps
  induction ps with
  | nil =>
    intro k
    show loadRecordsAux k [[]] = .ok []
    rw [loadRecordsAux, if_pos (show isBlankLine [] = true by decide)]
    rfl
  | cons p ps ih =>
    intro k
    rw [List.map_cons, List.cons_append, loadRecordsAux,
        if_neg (by rw [isBlankLine_encodeTsvLineVariant]; exact Bool.false_ne_true),
        parseTsvLine_encodeTsvLineVariant, ih (k + 1), List.map_cons]

theorem loadFromTsv_styleVariantText (m0 : MyModel)
    (ps : List (MyRect × StyleVariant)) :
    m0.loadFromTsv (styleVariantText ps) =
      (true, { m0 with m_vector := ps.map Prod.fst }, []) := by
  have hsplit : splitChar '\n' (styleVariantText ps) =
      (ps.map (fun p => encodeTsvLineVariant p.2 p.1)) ++ [[]] := by
    rw [styleVariantText]
    have hmm : ps.map (fun p => encodeTsvLineVariant p.2 p.1 ++ ['\n']) =
        (ps.map (fun p => encodeTsvLineVariant p.2 p.1)).map (fun l => l ++ ['\n']) := by
      rw [List.map_map]
      rfl
    rw [hmm, splitChar_nl_flatten]
    intro l hl
    rw [List.mem_map] at hl
    obtain ⟨p, _, rfl⟩ := hl
    exact nl_notMem_encodeTsvLineVariant p.2 p.1
  simp only [MyModel.loadFromTsv, hsplit, loadRecordsAux_encoded]

/-- Claim C2: loading the text produced by `saveToTsv` succeeds and
reproduces the record collection field-for-field, and the same holds for
the text with each record's style field rewritten into any accepted variant
(canonical name, bare integer, wrapped-integer form). -/
theorem c2_tsv_roundtrip (m m0 : MyModel) (ps : List (MyRect × StyleVariant)) :
    m0.loadFromTsv m.saveToTsv = (true, { m0 with m_vector := m.m_vector }, []) ∧
    m0.loadFromTsv (styleVariantText ps) =
      (true, { m0 with m_vector := ps.map Prod.fst }, []) := by
  constructor
  · have hsave : m.saveToTsv =
        styleVariantText (m.m_vector.map (fun r => (r, StyleVariant.canonical))) := by
      rw [MyModel.saveToTsv, styleVariantText, List.map_map]
      rfl
    rw [hsave, loadFromTsv_styleVariantText, List.map_map]
    simp [Function.comp_def]
  · exact loadFromTsv_styleVariantText m0 ps

theorem loadRecordsAux_ok_all : ∀ (k : Nat) (lines : List QStr) (rs : List MyRect),
    loadRecordsAux k lines = .ok rs →
    ∀ l ∈ lines, isBlankLine l = true ∨ (parseTsvLine l).isOk = true := by
  intro k lines
  induction lines generalizing k with
  | nil => intro rs _ l hl; simp at hl
  | cons a ls ih =>
    intro rs hok l hl
    rw [loadRecordsAux] at hok
    by_cases hb : isBlankLine a
    · rw [if_pos hb] at hok
      rcases List.mem_cons.mp hl with rfl | hl2
      · exact Or.inl hb
      · exact ih (k + 1) rs hok l hl2
    · rw [if_neg hb] at hok
      cases hp : parseTsvLine a with
      | error e => rw [hp] at hok; exact absurd hok (by simp)
      | ok r =>
        rw [hp] at hok
        rcases List.mem_cons.mp hl with rfl | hl2
        · exact Or.inr (by rw [hp]; rfl)
        · cases hrec : loadRecordsAux (k + 1) ls with
          | error e => rw [hrec] at hok; exact absurd hok (by simp)
          | ok rs2 => exact ih (k + 1) rs2 hrec l hl2

theorem loadRecordsAux_error_shape : ∀ (k : Nat) (lines : List QStr) (e : QStr),
    loadRecordsAux k lines = .error e → ∃ n err, e = renderTsvErr n err := by
  intro k lines
  induction lines generalizing k with
  | nil => intro e he; exact absurd he (by rw [loadRecordsAux]; simp)
  | cons a ls ih =>
    intro e he
    rw [loadRecordsAux] at he
    by_cases hb : isBlankLine a
    · rw [if_pos hb] at he
      exact ih (k + 1) e he
    · rw [if_neg hb] at he
      cases hp : parseTsvLine a with
      | error err =>
        rw [hp] at he
        exact ⟨k, err, (Except.error.inj he).symm⟩
      | ok r =>
        rw [hp] at he
        cases hrec : loadRecordsAux (k + 1) ls with
        | error e2 =>
          rw [hrec] at he
          obtain ⟨n, err, rfl⟩ := ih (k + 1) e2 hrec
          exact ⟨n, err, (Except.error.inj he).symm⟩
        | ok rs2 => rw [hrec] at he; exact absurd he (by simp)

theorem renderTsvErr_ne_nil (n : Nat) (e : TsvLineErr) : renderTsvErr n e ≠ [] := by
  intro h
  have := congrArg List.length h
  simp [renderTsvErr] at this

/-- Claim C1: on any input stream with at least one malformed line (wrong
field count, invalid colour, unrecognised style or non-integer numeric
field — exactly the failure modes of `parseTsvLine`), `loadFromTsv` returns
failure with a non-empty diagnostic and leaves the model exactly as it was;
the collection is replaced only when every line parses. -/
theorem c1_load_atomic (m : MyModel) (input : QStr)
    (h : ∃ l ∈ splitChar '\n' input,
      isBlankLine l = false ∧ (parseTsvLine l).isOk = false) :
    (m.loadFromTsv input).1 = false ∧ (m.loadFromTsv input).2.1 = m ∧
    (m.loadFromTsv input).2.2 ≠ [] := by
  obtain ⟨l, hl, hb, hp⟩ := h
  cases hres : loadRecordsAux 1 (splitChar '\n' input) with
  | ok rs =>
    rcases loadRecordsAux_ok_all 1 _ rs hres l hl with h2 | h2
    · rw [hb] at h2; exact absurd h2 (by simp)
    · rw [hp] at h2; exact absurd h2 (by simp)
  | error e =>
    obtain ⟨n, err, rfl⟩ := loadRecordsAux_error_shape 1 _ e hres
    refine ⟨?_, ?_, ?_⟩ <;> simp only [MyModel.loadFromTsv, hres]
    exact renderTsvErr_ne_nil n err

/-- Witness for C1: a six-field line makes the load fail on a fresh model
with a non-empty diagnostic and no change. -/
theorem c1_witness :
    (MyModel.new.loadFromTsv "#112233\tQt::DotLine\t1\t0\t0\t10\n".toList).1 = false ∧
    (MyModel.new.loadFromTsv "#112233\tQt::DotLine\t1\t0\t0\t10\n".toList).2.1 =
      MyModel.new ∧
    (MyModel.new.loadFromTsv "#112233\tQt::DotLine\t1\t0\t0\t10\n".toList).2.2 ≠ [] :=
  c1_load_atomic MyModel.new _ (by decide)
